import Mathlib

/-
  Verification of the `TemplateString` placeholder engine
  (`src/typings/shared.d.ts`, class `TemplateString`).

  Strings are modelled as `List Char`.  The placeholder regular expression
  built by `getPlaceholderPattern`,

      (?<![S|S0])S[A-Za-z0-9-_]+?E(?![E|E0] )

  (S = start tag, S0 its first character, E = end tag, E0 its first
  character; the `\-` and `\_` escapes of the JS string literal denote the
  plain characters `-` and `_`), is modelled by an executable scanner that
  follows the JS `RegExp`/`matchAll` semantics: left-to-right scan,
  non-overlapping matches, lazy (shortest) interior, a negative lookbehind
  that inspects the single character before the match and a negative
  lookahead that inspects the two characters after it.  The character
  classes `[S|S0]` and `[E|E0]` are modelled as character sets (exact
  whenever the tag contains no regex metacharacter, which holds for the
  default tags `{` and `}`); when a tag is the empty string, `S0`/`E0` is
  the JS string "undefined" spliced into the class.  String replacement
  (`String.prototype.replaceAll` with a string pattern) applies the
  `GetSubstitution` expansion to the replacement string, which is
  reproduced here.
-/

namespace TemplateString

/-- `constant` from `src/lib/utils.mjs`: the identity on a value. -/
def constant {α : Type} (value : α) : α := value

/-- `TemplateString.DEFAULT_START_TAG = constant("{")`. -/
def DEFAULT_START_TAG : List Char := constant ['{']

/-- `TemplateString.DEFAULT_END_TAG = constant("}")`. -/
def DEFAULT_END_TAG : List Char := constant ['}']

/-- The interior character class `[A-Za-z0-9-_]` of the placeholder
pattern. -/
def isIdentChar (c : Char) : Bool :=
  (decide ('A' ≤ c) && decide (c ≤ 'Z')) ||
  (decide ('a' ≤ c) && decide (c ≤ 'z')) ||
  (decide ('0' ≤ c) && decide (c ≤ '9')) ||
  c == '-' || c == '_'

/-- Membership in the guard character class `[T|T0]` built from a tag `T`:
the characters of the tag, the literal `|`, and - when the tag is empty, so
that `T[0]` is `undefined` and stringifies - the characters of
"undefined". -/
def tagClass (tag : List Char) (c : Char) : Bool :=
  tag.contains c || c == '|' || (tag.isEmpty && "undefined".data.contains c)

/-- The negative lookahead `(?![E|E0] )`: it vetoes a match exactly when
the text after the match starts with a character of the guard class
followed by a space. -/
def negLookaheadFails (endTag : List Char) : List Char → Bool
  | c1 :: c2 :: _ => tagClass endTag c1 && c2 == ' '
  | _ => false

/-- Lazy search for the interior of a placeholder: `acc` is the (reversed)
identifier text consumed so far; the end tag (plus lookahead) is tried at
each position, shortest interior first, exactly like `+?` backtracking. -/
def interiorSearch (endTag : List Char) : List Char → List Char →
    Option (List Char × List Char)
  | acc, [] =>
    if !acc.isEmpty && endTag.isPrefixOf [] &&
        !negLookaheadFails endTag (List.drop endTag.length []) then
      some (acc.reverse, List.drop endTag.length [])
    else none
  | acc, c :: cs =>
    if !acc.isEmpty && endTag.isPrefixOf (c :: cs) &&
        !negLookaheadFails endTag (List.drop endTag.length (c :: cs)) then
      some (acc.reverse, List.drop endTag.length (c :: cs))
    else if isIdentChar c then interiorSearch endTag (c :: acc) cs
    else none

/-- One attempt of the placeholder pattern at a fixed position: `prev` is
the character just before the position (for the lookbehind), `rest` the
text from the position on.  Returns the matched span and the remaining
text. -/
def matchAt (startTag endTag : List Char) (prev : Option Char)
    (rest : List Char) : Option (List Char × List Char) :=
  if (match prev with | some c => tagClass startTag c | none => false) then
    none
  else if startTag.isPrefixOf rest then
    match interiorSearch endTag [] (rest.drop startTag.length) with
    | some (interior, rest2) => some (startTag ++ interior ++ endTag, rest2)
    | none => none
  else none

/-- Global scan (`matchAll` with the `g` flag): try the pattern at each
position from left to right, and resume after the end of each match. -/
def scanTails (startTag endTag : List Char) : Nat → Option Char →
    List Char → List (List Char)
  | 0, _, _ => []
  | fuel + 1, prev, rest =>
    match matchAt startTag endTag prev rest with
    | some (span, rest2) =>
        span :: scanTails startTag endTag fuel span.getLast? rest2
    | none =>
      match rest with
      | [] => []
      | c :: cs => scanTails startTag endTag fuel (some c) cs

/-- `value.matchAll(this.pattern)`, collected as the list of matched
spans (`#getRemainingPlaceholders`). -/
def scan (startTag endTag text : List Char) : List (List Char) :=
  scanTails startTag endTag (text.length + 1) none text

/-- `${x[0]}` for a string `x`: its first character, or the text
"undefined" when the string is empty. -/
def charAt0 (s : List Char) : List Char :=
  match s with
  | [] => "undefined".data
  | c :: _ => [c]

/-- The exact source text of the regular expression built by
`getPlaceholderPattern(start, end)` (after JS string-escape resolution,
`\-` and `\_` denote `-` and `_`). -/
def patternSource (startTag endTag : List Char) : List Char :=
  "(?<![".data ++ startTag ++ "|".data ++ charAt0 startTag ++ "])".data ++
  startTag ++ "[A-Za-z0-9-_]+?".data ++ endTag ++
  "(?![".data ++ endTag ++ "|".data ++ charAt0 endTag ++ "] )".data

/-- A replacement value: JS `string | number | boolean | null`
(`undefined` is modelled as the absence of the entry). -/
inductive RepValue where
  | str (s : List Char)
  | num (n : Int)
  | bool (b : Bool)
  | null
deriving DecidableEq

/-- JS template-literal stringification applied to a replacement value. -/
def stringifyVal : RepValue → List Char
  | RepValue.str s => s
  | RepValue.num n => (toString n).data
  | RepValue.bool b => (if b then "true" else "false").data
  | RepValue.null => "null".data

/-- The `GetSubstitution` expansion JS applies to a string replacement:
`$$` inserts a dollar sign, `$&` the matched text, a dollar sign followed
by a backquote (`Char.ofNat 96`) the text preceding the match, a dollar
sign followed by an apostrophe (`Char.ofNat 39`) the text following it.
With a string search there are no capture groups, so every other `$`
sequence (digits and `$<` included) is literal text. -/
def getSubstitution (matched before after : List Char) :
    List Char → List Char
  | [] => []
  | c :: rest =>
    if c = '$' then
      match rest with
      | [] => ['$']
      | c2 :: rest2 =>
        if c2 = '$' then '$' :: getSubstitution matched before after rest2
        else if c2 = '&' then
          matched ++ getSubstitution matched before after rest2
        else if c2 = Char.ofNat 96 then
          before ++ getSubstitution matched before after rest2
        else if c2 = Char.ofNat 39 then
          after ++ getSubstitution matched before after rest2
        else '$' :: c2 :: getSubstitution matched before after rest2
    else c :: getSubstitution matched before after rest

/-- Fuel-driven body of `String.prototype.replaceAll` with a string
pattern: scan left to right, replace each non-overlapping occurrence with
the `GetSubstitution` expansion of the replacement string (`seen` is the
reversed text before the current position, so that the expansion sees the
surrounding text of the receiver).  The fuel is the length of the scanned
string, enough for every step (a step consumes at least one
character). -/
def replaceAllAux (pat rep : List Char) :
    Nat → List Char → List Char → List Char
  | 0, _, s => s
  | _ + 1, _, [] => []
  | fuel + 1, seen, c :: cs =>
    if pat.isPrefixOf (c :: cs) then
      getSubstitution pat seen.reverse (List.drop pat.length (c :: cs)) rep
        ++ replaceAllAux pat rep fuel (pat.reverse ++ seen)
            (List.drop pat.length (c :: cs))
    else c :: replaceAllAux pat rep fuel (c :: seen) cs

/-- An empty search string matches at every position:
`"abc".replaceAll("", "X") = "XaXbXcX"`, with the replacement expanded at
each position. -/
def replaceAllEmpty (rep : List Char) : List Char → List Char → List Char
  | seen, [] => getSubstitution [] seen.reverse [] rep
  | seen, c :: cs =>
    getSubstitution [] seen.reverse (c :: cs) rep
      ++ c :: replaceAllEmpty rep (c :: seen) cs

/-- `s.replaceAll(pat, rep)` with a string pattern and a string
replacement. -/
def replaceAll (s pat rep : List Char) : List Char :=
  if pat.isEmpty then replaceAllEmpty rep [] s
  else replaceAllAux pat rep s.length [] s

/-- `s.replace(pat, rep)` with a string pattern: replace the first
occurrence only. -/
def replaceFirst (pat rep : List Char) : List Char → List Char
  | [] => if pat.isEmpty then rep else []
  | c :: cs =>
    if pat.isPrefixOf (c :: cs) then rep ++ List.drop pat.length (c :: cs)
    else c :: replaceFirst pat rep cs

/-- The error thrown by `validate`: `cause.template` and
`cause.missingReplacements`. -/
structure ValidationError where
  template : List Char
  missingReplacements : List (List Char)
deriving DecidableEq

/-- The state of a `TemplateString` instance: the underlying string, the
two tags, and the three derived fields computed by the constructor. -/
structure Template where
  text : List Char
  startTag : List Char
  endTag : List Char
  placeholders : List (List Char)
  mapping : List (List Char × List Char)
  replacements : List (List Char × RepValue)
deriving DecidableEq

/-- Lookup in a JS object modelled as an insertion-ordered association
list; `none` plays the role of `undefined`. -/
def lookupAssoc {β : Type} (l : List (List Char × β)) (k : List Char) :
    Option β :=
  (l.find? (fun e => e.1 == k)).map (fun e => e.2)

/-- `obj[k] = v` on a JS object modelled as an insertion-ordered
association list: overwrite in place if the key exists, else append. -/
def assocSet {β : Type} (l : List (List Char × β)) (k : List Char) (v : β) :
    List (List Char × β) :=
  if l.any (fun e => e.1 == k) then
    l.map (fun e => if e.1 == k then (k, v) else e)
  else l ++ [(k, v)]

/-- `placeholder.replace(startTag, "").replace(endTag, "")`: the bare name
of a span (`#getPlaceholderMapping`'s strip). -/
def stripName (startTag endTag span : List Char) : List Char :=
  replaceFirst endTag [] (replaceFirst startTag [] span)

/-- `#getPlaceholderMapping`: the span-to-name object, built by inserting
each scanned span in order. -/
def getPlaceholderMapping (startTag endTag : List Char)
    (placeholders : List (List Char)) : List (List Char × List Char) :=
  placeholders.foldl
    (fun acc span => assocSet acc span (stripName startTag endTag span)) []

/-- `#getInitialReplacements`: every mapped name gets
`fallback[name] ?? null`. -/
def getInitialReplacements (mapping : List (List Char × List Char))
    (fallback : List (List Char × RepValue)) :
    List (List Char × RepValue) :=
  mapping.foldl
    (fun acc e =>
      assocSet acc e.2 ((lookupAssoc fallback e.2).getD RepValue.null)) []

/-- The constructor `new TemplateString(template, tags?, replacements?)`:
an empty (falsy) tag string falls back to the default tag via `||`. -/
def mkTemplate (text : List Char) (tags : Option (List Char × List Char))
    (replacements : List (List Char × RepValue)) : Template :=
  let startTag := match tags with
    | some (s, _) => if s.isEmpty then DEFAULT_START_TAG else s
    | none => DEFAULT_START_TAG
  let endTag := match tags with
    | some (_, e) => if e.isEmpty then DEFAULT_END_TAG else e
    | none => DEFAULT_END_TAG
  let placeholders := scan startTag endTag text
  let mapping := getPlaceholderMapping startTag endTag placeholders
  { text := text, startTag := startTag, endTag := endTag,
    placeholders := placeholders, mapping := mapping,
    replacements := getInitialReplacements mapping replacements }

/-- `#getRemainingPlaceholders(value)`: scan `value` with the template's
own pattern. -/
def getRemainingPlaceholders (t : Template) (value : List Char) :
    List (List Char) :=
  scan t.startTag t.endTag value

/-- `replacements[k] ?? this.replacements[k]`: a `null` or missing
override falls back to the stored default. -/
def resolveValue (overrides stored : List (List Char × RepValue))
    (name : List Char) : Option RepValue :=
  match lookupAssoc overrides name with
  | some v => if v = RepValue.null then lookupAssoc stored name else some v
  | none => lookupAssoc stored name

/-- One iteration of `render`'s loop: substitute a mapping entry into the
accumulated result when its resolved value is present. -/
def substStep (overrides stored : List (List Char × RepValue))
    (result : List Char) (entry : List Char × List Char) : List Char :=
  match resolveValue overrides stored entry.2 with
  | some v =>
      if v = RepValue.null then result
      else replaceAll result entry.1 (stringifyVal v)
  | none => result

/-- The substitution pass of `render`: fold the loop body over the mapping
in insertion order, starting from the raw text. -/
def substitute (t : Template) (overrides : List (List Char × RepValue)) :
    List Char :=
  t.mapping.foldl (substStep overrides t.replacements) t.text

/-- `validate(value)`: throw iff spans remain in `value`; the error
carries `${this}` (the original template text) and the remaining spans. -/
def validate (t : Template) (value : List Char) :
    Except ValidationError Unit :=
  let remaining := getRemainingPlaceholders t value
  if remaining.length > 0 then
    Except.error { template := t.text, missingReplacements := remaining }
  else Except.ok ()

/-- `render(replacements, validate)`: substitute, then optionally
validate the result. -/
def render (t : Template) (overrides : List (List Char × RepValue))
    (check : Bool) : Except ValidationError (List Char) :=
  let result := substitute t overrides
  if check then
    match validate t result with
    | Except.error e => Except.error e
    | Except.ok _ => Except.ok result
  else Except.ok result

/-- `TemplateString.fromTemplate(template, replacements)`: render without
validation and rebuild with the same tags (and no initial
replacements). -/
def fromTemplate (t : Template)
    (replacements : List (List Char × RepValue)) : Template :=
  mkTemplate (substitute t replacements) (some (t.startTag, t.endTag)) []

/-- `fork(replacements)`. -/
def fork (t : Template) (replacements : List (List Char × RepValue)) :
    Template :=
  fromTemplate t replacements

/-- `p` occurs as a contiguous substring of `s`. -/
def occursIn (p : List Char) : List Char → Bool
  | [] => p.isEmpty
  | c :: cs => p.isPrefixOf (c :: cs) || occursIn p cs

/-- No occurrence of `p` starts strictly inside `t` when the text
continues as `t ++ p ++ rest`: the scan of `replaceAll` meets no match
before the explicit one. -/
def noCrossB (p rest : List Char) : List Char → Bool
  | [] => true
  | c :: cs => !(p.isPrefixOf ((c :: cs) ++ p ++ rest)) && noCrossB p rest cs

/-- Join a list of parts with a separator:
`joinWith sep [a, b, c] = a ++ sep ++ b ++ sep ++ c`. -/
def joinWith (sep : List Char) : List (List Char) → List Char
  | [] => []
  | [t] => t
  | t :: rest => t ++ sep ++ joinWith sep rest

/-- The parts of a decomposition `joinWith p parts` expose every
occurrence of `p`: none hides inside a part or across a boundary. -/
def cleanParts (p : List Char) : List (List Char) → Bool
  | [] => true
  | [t] => !occursIn p t
  | t :: rest => noCrossB p (joinWith p rest) t && cleanParts p rest

/-! ### Helper lemmas -/


theorem isPrefixOf_self_append (p r : List Char) :
    p.isPrefixOf (p ++ r) = true := by
  rw [List.isPrefixOf_iff_prefix]
  exact List.prefix_append p r

theorem getSubstitution_no_dollar (matched before after : List Char) :
    ∀ rep : List Char, ('$' : Char) ∉ rep →
      getSubstitution matched before after rep = rep := by
  intro rep
  induction rep with
  | nil => intro _; rfl
  | cons c rest ih =>
    intro h
    have hc : c ≠ '$' := by
      intro hcc
      subst hcc
      exact h (List.mem_cons_self _ _)
    rw [getSubstitution.eq_def]
    simp only [if_neg hc]
    rw [ih (fun hm => h (List.mem_cons_of_mem c hm))]

theorem replaceAllAux_succ_hit (pat rep : List Char) (hp : pat ≠ [])
    (f : Nat) (seen s : List Char) (h : pat.isPrefixOf s = true) :
    replaceAllAux pat rep (f + 1) seen s
      = getSubstitution pat seen.reverse (s.drop pat.length) rep
        ++ replaceAllAux pat rep f (pat.reverse ++ seen) (s.drop pat.length) := by
  cases s with
  | nil =>
    cases pat with
    | nil => exact absurd rfl hp
    | cons c p2 => simp [List.isPrefixOf] at h
  | cons c cs => simp only [replaceAllAux, h, if_true]

theorem replaceAllAux_succ_miss (pat rep : List Char) (f : Nat)
    (seen : List Char) (c : Char) (cs : List Char)
    (h : pat.isPrefixOf (c :: cs) = false) :
    replaceAllAux pat rep (f + 1) seen (c :: cs)
      = c :: replaceAllAux pat rep f (c :: seen) cs := by
  simp only [replaceAllAux, h, Bool.false_eq_true, if_false]

theorem replaceAllAux_seen (pat rep : List Char)
    (hnd : ('$' : Char) ∉ rep) :
    ∀ (fuel : Nat) (seen1 seen2 s : List Char),
      replaceAllAux pat rep fuel seen1 s
        = replaceAllAux pat rep fuel seen2 s := by
  intro fuel
  induction fuel with
  | zero => intro seen1 seen2 s; rfl
  | succ fuel ih =>
    intro seen1 seen2 s
    cases s with
    | nil => rfl
    | cons c cs =>
      by_cases h : pat.isPrefixOf (c :: cs) = true
      · simp only [replaceAllAux, h, if_true]
        rw [getSubstitution_no_dollar _ _ _ rep hnd,
          getSubstitution_no_dollar _ _ _ rep hnd,
          ih (pat.reverse ++ seen1) (pat.reverse ++ seen2) _]
      · rw [Bool.not_eq_true] at h
        simp only [replaceAllAux, h, Bool.false_eq_true, if_false]
        rw [ih (c :: seen1) (c :: seen2) cs]

theorem replaceAllAux_fuel (pat rep : List Char) (hp : pat ≠ []) :
    ∀ (f1 : Nat) {s : List Char} (f2 : Nat) (seen : List Char),
      s.length ≤ f1 → s.length ≤ f2 →
      replaceAllAux pat rep f1 seen s = replaceAllAux pat rep f2 seen s := by
  intro f1
  induction f1 with
  | zero =>
    intro s f2 seen h1 h2
    have hs : s = [] := List.eq_nil_of_length_eq_zero (Nat.le_zero.mp h1)
    subst hs
    cases f2 <;> rfl
  | succ f1 ih =>
    intro s f2 seen h1 h2
    cases s with
    | nil => cases f2 <;> rfl
    | cons c cs =>
      cases f2 with
      | zero => simp at h2
      | succ f22 =>
        have hlen : 0 < pat.length := List.length_pos.mpr hp
        simp only [List.length_cons] at h1 h2
        by_cases h : pat.isPrefixOf (c :: cs) = true
        · rw [replaceAllAux_succ_hit pat rep hp f1 seen _ h,
            replaceAllAux_succ_hit pat rep hp f22 seen _ h]
          congr 1
          apply ih
          · simp only [List.length_drop, List.length_cons]; omega
          · simp only [List.length_drop, List.length_cons]; omega
        · rw [Bool.not_eq_true] at h
          rw [replaceAllAux_succ_miss pat rep f1 seen c cs h,
            replaceAllAux_succ_miss pat rep f22 seen c cs h]
          congr 1
          apply ih <;> omega

theorem replaceAllAux_no_occurrence (pat rep : List Char) :
    ∀ (fuel : Nat) (seen : List Char) {s : List Char}, s.length ≤ fuel →
      occursIn pat s = false → replaceAllAux pat rep fuel seen s = s := by
  intro fuel
  induction fuel with
  | zero => intro seen s h1 h2; rfl
  | succ fuel ih =>
    intro seen s h1 h2
    cases s with
    | nil => rfl
    | cons c cs =>
      simp only [occursIn, Bool.or_eq_false_iff] at h2
      rw [replaceAllAux_succ_miss pat rep fuel seen c cs h2.1]
      congr 1
      apply ih
      · simp only [List.length_cons] at h1; omega
      · exact h2.2

theorem replaceAllAux_decomp (pat rep : List Char) (hp : pat ≠ [])
    (hnd : ('$' : Char) ∉ rep) :
    ∀ (t : List Char) (fuel : Nat) (seen rest : List Char),
      (t ++ pat ++ rest).length ≤ fuel → noCrossB pat rest t = true →
      replaceAllAux pat rep fuel seen (t ++ pat ++ rest)
        = t ++ rep ++ replaceAllAux pat rep rest.length [] rest := by
  intro t
  induction t with
  | nil =>
    intro fuel seen rest h1 _h2
    simp only [List.nil_append] at h1 ⊢
    cases fuel with
    | zero =>
      exfalso
      simp only [List.length_append, Nat.le_zero] at h1
      exact hp (List.eq_nil_of_length_eq_zero (by omega))
    | succ f =>
      rw [replaceAllAux_succ_hit pat rep hp f seen _
          (isPrefixOf_self_append pat rest),
        List.drop_left]
      rw [getSubstitution_no_dollar _ _ _ rep hnd]
      congr 1
      have hlen : 0 < pat.length := List.length_pos.mpr hp
      rw [replaceAllAux_fuel pat rep hp f rest.length (pat.reverse ++ seen)
          (by simp only [List.length_append] at h1; omega) (Nat.le_refl _)]
      exact replaceAllAux_seen pat rep hnd rest.length
        (pat.reverse ++ seen) [] rest
  | cons c t2 ih =>
    intro fuel seen rest h1 h2
    simp only [noCrossB, List.cons_append, Bool.and_eq_true,
      Bool.not_eq_true'] at h2
    simp only [List.cons_append] at h1 ⊢
    cases fuel with
    | zero =>
      exfalso
      simp only [List.length_cons, Nat.le_zero] at h1
      omega
    | succ f =>
      rw [replaceAllAux_succ_miss pat rep f seen c _ h2.1]
      rw [ih f (c :: seen) rest
        (by simp only [List.length_cons] at h1; omega) h2.2]

theorem joinWith_cons2 (sep t r : List Char) (rs : List (List Char)) :
    joinWith sep (t :: r :: rs) = t ++ sep ++ joinWith sep (r :: rs) := rfl

theorem cleanParts_cons2 (p t r : List Char) (rs : List (List Char)) :
    cleanParts p (t :: r :: rs)
      = (noCrossB p (joinWith p (r :: rs)) t && cleanParts p (r :: rs)) := rfl

theorem replaceAllAux_joinWith (pat rep : List Char) (hp : pat ≠ [])
    (hnd : ('$' : Char) ∉ rep) :
    ∀ (parts : List (List Char)) (fuel : Nat) (seen : List Char),
      (joinWith pat parts).length ≤ fuel → cleanParts pat parts = true →
      replaceAllAux pat rep fuel seen (joinWith pat parts)
        = joinWith rep parts := by
  intro parts
  induction parts with
  | nil =>
    intro fuel seen h1 h2
    cases fuel <;> rfl
  | cons t rest ih =>
    intro fuel seen h1 h2
    cases rest with
    | nil =>
      have hocc : occursIn pat t = false := by
        simpa [cleanParts] using h2
      simpa [joinWith] using
        replaceAllAux_no_occurrence pat rep fuel seen
          (by simpa [joinWith] using h1) hocc
    | cons r rs =>
      rw [cleanParts_cons2, Bool.and_eq_true] at h2
      rw [joinWith_cons2] at h1 ⊢
      rw [replaceAllAux_decomp pat rep hp hnd t fuel seen
        (joinWith pat (r :: rs)) h1 h2.1]
      rw [ih (joinWith pat (r :: rs)).length [] (Nat.le_refl _) h2.2]
      rw [joinWith_cons2]

theorem replaceAll_joinWith (pat rep : List Char) (hp : pat ≠ [])
    (hnd : ('$' : Char) ∉ rep)
    (parts : List (List Char)) (hc : cleanParts pat parts = true) :
    replaceAll (joinWith pat parts) pat rep = joinWith rep parts := by
  have hne : pat.isEmpty = false := by
    cases pat with
    | nil => exact absurd rfl hp
    | cons c cs => rfl
  rw [replaceAll, hne]
  simp only [Bool.false_eq_true, if_false]
  exact replaceAllAux_joinWith pat rep hp hnd parts _ [] (Nat.le_refl _) hc



theorem assocSet_mem {β : Type} {l : List (List Char × β)} {k : List Char}
    {v : β} {e : List Char × β} (h : e ∈ assocSet l k v) :
    e ∈ l ∨ e = (k, v) := by
  rw [assocSet] at h
  by_cases hc : l.any (fun e => e.1 == k) = true
  · rw [if_pos hc] at h
    rcases List.mem_map.mp h with ⟨p, hp, hpe⟩
    by_cases hk : (p.1 == k) = true
    · right
      rw [hk] at hpe
      simp at hpe
      exact hpe.symm
    · left
      rw [Bool.not_eq_true] at hk
      rw [hk] at hpe
      simp at hpe
      rw [← hpe]
      exact hp
  · rw [if_neg hc] at h
    rcases List.mem_append.mp h with h | h
    · exact Or.inl h
    · right
      simpa using h

theorem assocSet_keys_mem {β : Type} (l : List (List Char × β))
    (k : List Char) (v : β) :
    k ∈ (assocSet l k v).map (fun e => e.1) := by
  rw [assocSet]
  by_cases hc : l.any (fun e => e.1 == k) = true
  · rw [if_pos hc]
    rcases List.any_eq_true.mp hc with ⟨p, hp, hpk⟩
    refine List.mem_map.mpr ⟨(k, v), ?_, rfl⟩
    refine List.mem_map.mpr ⟨p, hp, ?_⟩
    simp [hpk]
  · rw [if_neg hc]
    exact List.mem_map.mpr
      ⟨(k, v), List.mem_append.mpr (Or.inr (List.mem_singleton.mpr rfl)), rfl⟩

theorem assocSet_keys_sub {β : Type} {l : List (List Char × β)}
    {k g : List Char} (v : β) (h : g ∈ l.map (fun e => e.1)) :
    g ∈ (assocSet l k v).map (fun e => e.1) := by
  rw [assocSet]
  by_cases hc : l.any (fun e => e.1 == k) = true
  · rw [if_pos hc]
    rcases List.mem_map.mp h with ⟨p, hp, hpg⟩
    refine List.mem_map.mpr ⟨if p.1 == k then (k, v) else p, ?_, ?_⟩
    · exact List.mem_map.mpr ⟨p, hp, rfl⟩
    · by_cases hk : (p.1 == k) = true
      · rw [if_pos hk]
        rw [← hpg]
        exact (beq_iff_eq.mp hk).symm
      · rw [if_neg hk]
        exact hpg
  · rw [if_neg hc]
    rw [List.map_append]
    exact List.mem_append.mpr (Or.inl h)

theorem assocSet_keys_nodup {β : Type} {l : List (List Char × β)}
    (k : List Char) (v : β) (h : (l.map (fun e => e.1)).Nodup) :
    ((assocSet l k v).map (fun e => e.1)).Nodup := by
  rw [assocSet]
  by_cases hc : l.any (fun e => e.1 == k) = true
  · rw [if_pos hc]
    have : (l.map (fun e => if e.1 == k then (k, v) else e)).map (fun e => e.1)
        = l.map (fun e => e.1) := by
      rw [List.map_map]
      apply List.map_congr_left
      intro p _
      by_cases hk : (p.1 == k) = true
      · simp only [Function.comp, hk, if_true]
        exact (beq_iff_eq.mp hk).symm
      · simp only [Function.comp, hk, Bool.false_eq_true, if_false]
    rw [this]
    exact h
  · rw [if_neg hc]
    rw [List.map_append]
    rw [List.nodup_append]
    refine ⟨h, by simp, ?_⟩
    intro g hg hg2
    simp only [List.map_cons, List.map_nil, List.mem_singleton] at hg2
    subst hg2
    rcases List.mem_map.mp hg with ⟨p, hp, hpk⟩
    exact hc (List.any_eq_true.mpr ⟨p, hp, beq_iff_eq.mpr hpk⟩)

theorem lookupAssoc_cons {β : Type} (e : List Char × β)
    (l : List (List Char × β)) (k : List Char) :
    lookupAssoc (e :: l) k
      = if (e.1 == k) = true then some e.2 else lookupAssoc l k := by
  by_cases hk : (e.1 == k) = true
  · rw [if_pos hk, lookupAssoc,
      List.find?_cons_of_pos (p := fun x : List Char × β => x.1 == k) l hk]
    rfl
  · rw [if_neg hk, lookupAssoc,
      List.find?_cons_of_neg (p := fun x : List Char × β => x.1 == k) l hk, lookupAssoc]

theorem lookupAssoc_mem {β : Type} {l : List (List Char × β)}
    {k : List Char} {v : β} (h : lookupAssoc l k = some v) : (k, v) ∈ l := by
  rw [lookupAssoc] at h
  rcases Option.map_eq_some'.mp h with ⟨e, hf, he⟩
  have hk0 : ((fun x : List Char × β => x.1 == k) e) = true :=
    List.find?_some (p := fun x : List Char × β => x.1 == k) hf
  have hk : e.1 = k := beq_iff_eq.mp hk0
  have hm : e ∈ l := List.mem_of_find?_eq_some hf
  have heq : (k, v) = e := by
    cases e with
    | mk a b =>
      simp only at hk he
      rw [hk, he]
  rw [heq]
  exact hm

theorem lookupAssoc_isSome_of_key {β : Type} {l : List (List Char × β)}
    {k : List Char} (h : k ∈ l.map (fun e => e.1)) :
    ∃ v, lookupAssoc l k = some v := by
  induction l with
  | nil => simp at h
  | cons e l2 ih =>
    by_cases hk : (e.1 == k) = true
    · exact ⟨e.2, by rw [lookupAssoc_cons, if_pos hk]⟩
    · have hmem : k ∈ l2.map (fun e => e.1) := by
        simp only [List.map_cons, List.mem_cons] at h
        rcases h with h | h
        · exact absurd (beq_iff_eq.mpr h.symm) hk
        · exact h
      rcases ih hmem with ⟨v, hv⟩
      exact ⟨v, by rw [lookupAssoc_cons, if_neg hk]; exact hv⟩

theorem lookupAssoc_nil {β : Type} (k : List Char) :
    lookupAssoc ([] : List (List Char × β)) k = none := rfl

/-- Every value stored by `getInitialReplacements mapping []` is `null`. -/
theorem getInitialReplacements_nil_values :
    ∀ (mapping : List (List Char × List Char))
      (acc : List (List Char × RepValue)),
      (∀ e ∈ acc, e.2 = RepValue.null) →
      ∀ e ∈ mapping.foldl
        (fun acc e =>
          assocSet acc e.2 ((lookupAssoc ([] : List (List Char × RepValue)) e.2).getD RepValue.null)) acc,
        e.2 = RepValue.null := by
  intro mapping
  induction mapping with
  | nil => intro acc hacc e he; exact hacc e he
  | cons m mapping2 ih =>
    intro acc hacc e he
    simp only [List.foldl_cons] at he
    refine ih _ ?_ e he
    intro x hx
    rcases assocSet_mem hx with hx | hx
    · exact hacc x hx
    · rw [hx]
      rfl

/-- Every mapped name is a key of `getInitialReplacements mapping fb`. -/
theorem getInitialReplacements_keys :
    ∀ (mapping : List (List Char × List Char))
      (fb acc : List (List Char × RepValue)) (g : List Char),
      (g ∈ acc.map (fun e => e.1) ∨ g ∈ mapping.map (fun e => e.2)) →
      g ∈ (mapping.foldl
        (fun acc e => assocSet acc e.2 ((lookupAssoc fb e.2).getD RepValue.null)) acc).map
        (fun e => e.1) := by
  intro mapping
  induction mapping with
  | nil =>
    intro fb acc g hg
    rcases hg with hg | hg
    · exact hg
    · simp at hg
  | cons m mapping2 ih =>
    intro fb acc g hg
    simp only [List.foldl_cons]
    apply ih
    rcases hg with hg | hg
    · exact Or.inl (assocSet_keys_sub _ hg)
    · simp only [List.map_cons, List.mem_cons] at hg
      rcases hg with hg | hg
      · subst hg
        exact Or.inl (assocSet_keys_mem _ _ _)
      · exact Or.inr hg

/-- Looking up any mapped name in the initial replacements derived with an
empty fallback yields the `null` sentinel. -/
theorem lookup_initial_null (mapping : List (List Char × List Char))
    (m : List Char) (hm : m ∈ mapping.map (fun e => e.2)) :
    lookupAssoc (getInitialReplacements mapping []) m = some RepValue.null := by
  have hkey : m ∈ (getInitialReplacements mapping []).map (fun e => e.1) :=
    getInitialReplacements_keys mapping [] [] m (Or.inr hm)
  rcases lookupAssoc_isSome_of_key hkey with ⟨v, hv⟩
  have : (m, v) ∈ getInitialReplacements mapping [] := lookupAssoc_mem hv
  have hv2 : v = RepValue.null :=
    getInitialReplacements_nil_values mapping [] (by intro e he; simp at he)
      (m, v) this
  rw [hv, hv2]

/-- A fold of the render loop over entries whose resolved value is absent
leaves the accumulated text unchanged. -/
theorem foldl_substStep_id (ov st : List (List Char × RepValue)) :
    ∀ (l : List (List Char × List Char)) (s : List Char),
      (∀ e ∈ l, resolveValue ov st e.2 = some RepValue.null ∨
        resolveValue ov st e.2 = none) →
      l.foldl (substStep ov st) s = s := by
  intro l
  induction l with
  | nil => intro s _; rfl
  | cons e l2 ih =>
    intro s h
    simp only [List.foldl_cons]
    have hstep : substStep ov st s e = s := by
      rcases h e (List.mem_cons_self e l2) with he | he
      · rw [substStep, he]
        simp
      · rw [substStep, he]
    rw [hstep]
    exact ih s (fun x hx => h x (List.mem_cons_of_mem e hx))

/-- Claim C5 core: the substitution pass of a freshly forked template with
no overrides is the identity. -/
theorem substitute_fork_nil (t : Template)
    (R : List (List Char × RepValue)) :
    substitute (fork t R) [] = substitute t R := by
  rw [fork, fromTemplate]
  rw [substitute]
  apply foldl_substStep_id
  intro e he
  left
  rw [resolveValue, lookupAssoc_nil]
  have hm : e.2 ∈ (mkTemplate (substitute t R) (some (t.startTag, t.endTag)) []).mapping.map
      (fun x => x.2) := List.mem_map.mpr ⟨e, he, rfl⟩
  exact lookup_initial_null _ _ hm



theorem interiorSearch_nil (E acc : List Char) :
    interiorSearch E acc []
      = if (!acc.isEmpty && E.isPrefixOf [] &&
            !negLookaheadFails E (List.drop E.length [])) = true then
          some (acc.reverse, List.drop E.length [])
        else none := rfl

theorem interiorSearch_cons (E acc : List Char) (c : Char) (cs : List Char) :
    interiorSearch E acc (c :: cs)
      = if (!acc.isEmpty && E.isPrefixOf (c :: cs) &&
            !negLookaheadFails E (List.drop E.length (c :: cs))) = true then
          some (acc.reverse, List.drop E.length (c :: cs))
        else if isIdentChar c = true then interiorSearch E (c :: acc) cs
        else none := rfl

theorem scanTails_succ (S E : List Char) (fuel : Nat) (prev : Option Char)
    (rest : List Char) :
    scanTails S E (fuel + 1) prev rest
      = match matchAt S E prev rest with
        | some (span, rest2) =>
            span :: scanTails S E fuel span.getLast? rest2
        | none =>
          match rest with
          | [] => []
          | c :: cs => scanTails S E fuel (some c) cs := rfl

theorem replaceFirst_cons (pat rep : List Char) (c : Char) (cs : List Char) :
    replaceFirst pat rep (c :: cs)
      = if pat.isPrefixOf (c :: cs) = true then
          rep ++ List.drop pat.length (c :: cs)
        else c :: replaceFirst pat rep cs := rfl

theorem not_prefix_rbrace (c : Char) (hc : isIdentChar c = true)
    (l : List Char) :
    (['}'] : List Char).isPrefixOf (c :: l) = false := by
  have hne : (('}' : Char) == c) = false := by
    rw [beq_eq_false_iff_ne]
    intro h
    rw [← h] at hc
    exact absurd hc (by decide)
  simp [List.isPrefixOf, hne]

theorem interiorSearch_shape (E : List Char) :
    ∀ (rest acc int rest2 : List Char),
      (∀ c ∈ acc, isIdentChar c = true) →
      interiorSearch E acc rest = some (int, rest2) →
      int ≠ [] ∧ (∀ c ∈ int, isIdentChar c = true) := by
  intro rest
  induction rest with
  | nil =>
    intro acc int rest2 hacc h
    rw [interiorSearch_nil] at h
    split at h
    · rename_i hcond
      simp only [Bool.and_eq_true, Bool.not_eq_true'] at hcond
      simp only [Option.some.injEq, Prod.mk.injEq] at h
      have hne : acc ≠ [] := by
        intro hnil
        rw [hnil] at hcond
        simp at hcond
      refine ⟨?_, ?_⟩
      · rw [← h.1]
        intro hrev
        exact hne (List.reverse_eq_nil_iff.mp hrev)
      · intro c hcmem
        rw [← h.1] at hcmem
        exact hacc c (List.mem_reverse.mp hcmem)
    · exact Option.noConfusion h
  | cons c cs ih =>
    intro acc int rest2 hacc h
    rw [interiorSearch_cons] at h
    split at h
    · rename_i hcond
      simp only [Bool.and_eq_true, Bool.not_eq_true'] at hcond
      simp only [Option.some.injEq, Prod.mk.injEq] at h
      have hne : acc ≠ [] := by
        intro hnil
        rw [hnil] at hcond
        simp at hcond
      refine ⟨?_, ?_⟩
      · rw [← h.1]
        intro hrev
        exact hne (List.reverse_eq_nil_iff.mp hrev)
      · intro x hxmem
        rw [← h.1] at hxmem
        exact hacc x (List.mem_reverse.mp hxmem)
    · split at h
      · rename_i hident
        refine ih (c :: acc) int rest2 ?_ h
        intro x hx
        rcases List.mem_cons.mp hx with hx | hx
        · rw [hx]; assumption
        · exact hacc x hx
      · exact Option.noConfusion h

theorem matchAt_shape {S E : List Char} {prev : Option Char}
    {rest span rest2 : List Char}
    (h : matchAt S E prev rest = some (span, rest2)) :
    ∃ int, span = S ++ int ++ E ∧ int ≠ [] ∧
      ∀ c ∈ int, isIdentChar c = true := by
  rw [matchAt.eq_def] at h
  split at h
  · exact Option.noConfusion h
  · split at h
    · cases hi : interiorSearch E [] (rest.drop S.length) with
      | none => rw [hi] at h; exact Option.noConfusion h
      | some pr =>
        rw [hi] at h
        cases pr with
        | mk int r2 =>
          simp only [Option.some.injEq, Prod.mk.injEq] at h
          rcases interiorSearch_shape E _ [] int r2 (by intro c hc; simp at hc)
            hi with ⟨hne, hid⟩
          exact ⟨int, h.1.symm, hne, hid⟩
    · exact Option.noConfusion h

theorem scanTails_shape (S E : List Char) :
    ∀ (fuel : Nat) (prev : Option Char) (rest span : List Char),
      span ∈ scanTails S E fuel prev rest →
      ∃ int, span = S ++ int ++ E ∧ int ≠ [] ∧
        ∀ c ∈ int, isIdentChar c = true := by
  intro fuel
  induction fuel with
  | zero =>
    intro prev rest span h
    simp [scanTails] at h
  | succ fuel ih =>
    intro prev rest span h
    rw [scanTails_succ] at h
    cases hm : matchAt S E prev rest with
    | some pr =>
      rw [hm] at h
      cases pr with
      | mk sp r2 =>
        rcases List.mem_cons.mp h with h | h
        · subst h
          exact matchAt_shape hm
        · exact ih _ _ _ h
    | none =>
      rw [hm] at h
      cases rest with
      | nil => simp at h
      | cons c cs => exact ih _ _ _ h

theorem scan_shape {S E text span : List Char} (h : span ∈ scan S E text) :
    ∃ int, span = S ++ int ++ E ∧ int ≠ [] ∧
      ∀ c ∈ int, isIdentChar c = true :=
  scanTails_shape S E _ none text span h

theorem replaceFirst_left_brace (l : List Char) :
    replaceFirst ['{'] [] ('{' :: l) = l := by
  rw [replaceFirst_cons]
  simp [List.isPrefixOf]

theorem replaceFirst_ident_rbrace :
    ∀ (int : List Char), (∀ c ∈ int, isIdentChar c = true) →
      replaceFirst ['}'] [] (int ++ ['}']) = int := by
  intro int
  induction int with
  | nil => intro _; rfl
  | cons c int2 ih =>
    intro hid
    have hc : isIdentChar c = true := hid c (List.mem_cons_self c int2)
    rw [List.cons_append, replaceFirst_cons, not_prefix_rbrace c hc]
    simp only [Bool.false_eq_true, if_false]
    rw [ih (fun x hx => hid x (List.mem_cons_of_mem c hx))]

theorem stripName_default (int : List Char)
    (hid : ∀ c ∈ int, isIdentChar c = true) :
    stripName ['{'] ['}'] ('{' :: (int ++ ['}'])) = int := by
  rw [stripName, replaceFirst_left_brace]
  exact replaceFirst_ident_rbrace int hid



theorem getPlaceholderMapping_mem (S E : List Char) :
    ∀ (phs : List (List Char)) (acc : List (List Char × List Char))
      (e : List Char × List Char),
      e ∈ phs.foldl (fun a span => assocSet a span (stripName S E span)) acc →
      e ∈ acc ∨ ∃ span ∈ phs, e = (span, stripName S E span) := by
  intro phs
  induction phs with
  | nil => intro acc e he; exact Or.inl he
  | cons sp phs2 ih =>
    intro acc e he
    simp only [List.foldl_cons] at he
    rcases ih _ e he with he2 | he2
    · rcases assocSet_mem he2 with he3 | he3
      · exact Or.inl he3
      · exact Or.inr ⟨sp, List.mem_cons_self sp phs2, he3⟩
    · rcases he2 with ⟨span, hs, he3⟩
      exact Or.inr ⟨span, List.mem_cons_of_mem sp hs, he3⟩

theorem getPlaceholderMapping_keys (S E : List Char) :
    ∀ (phs : List (List Char)) (acc : List (List Char × List Char))
      (q : List Char),
      (q ∈ acc.map (fun e => e.1) ∨ q ∈ phs) →
      q ∈ (phs.foldl (fun a span => assocSet a span (stripName S E span)) acc).map
        (fun e => e.1) := by
  intro phs
  induction phs with
  | nil =>
    intro acc q hq
    rcases hq with hq | hq
    · exact hq
    · simp at hq
  | cons sp phs2 ih =>
    intro acc q hq
    simp only [List.foldl_cons]
    apply ih
    rcases hq with hq | hq
    · exact Or.inl (assocSet_keys_sub _ hq)
    · rcases List.mem_cons.mp hq with hq | hq
      · subst hq
        exact Or.inl (assocSet_keys_mem _ _ _)
      · exact Or.inr hq

theorem getPlaceholderMapping_nodup (S E : List Char) :
    ∀ (phs : List (List Char)) (acc : List (List Char × List Char)),
      (acc.map (fun e => e.1)).Nodup →
      ((phs.foldl (fun a span => assocSet a span (stripName S E span)) acc).map
        (fun e => e.1)).Nodup := by
  intro phs
  induction phs with
  | nil => intro acc h; exact h
  | cons sp phs2 ih =>
    intro acc h
    simp only [List.foldl_cons]
    exact ih _ (assocSet_keys_nodup _ _ h)

theorem lookupAssoc_single_ne {v : RepValue} {name m : List Char}
    (h : m ≠ name) : lookupAssoc [(name, v)] m = none := by
  rw [lookupAssoc_cons, if_neg, lookupAssoc_nil]
  intro hb
  exact h (beq_iff_eq.mp hb).symm

theorem lookupAssoc_single_eq (v : RepValue) (name : List Char) :
    lookupAssoc [(name, v)] name = some v := by
  rw [lookupAssoc_cons, if_pos (beq_iff_eq.mpr rfl)]

/-- Computation of the lazy interior search over an identifier run under
the default end tag: the match closes exactly at the following `}` and
succeeds iff the lookahead does not veto it. -/
theorem interiorSearch_ident_run :
    ∀ (name acc after : List Char), name ≠ [] →
      (∀ c ∈ name, isIdentChar c = true) →
      interiorSearch ['}'] acc (name ++ '}' :: after)
        = if negLookaheadFails ['}'] after = true then none
          else some (acc.reverse ++ name, after) := by
  intro name
  induction name with
  | nil => intro acc after h _; exact absurd rfl h
  | cons n name2 ih =>
    intro acc after _ hid
    have hn : isIdentChar n = true := hid n (List.mem_cons_self n name2)
    rw [List.cons_append, interiorSearch_cons, not_prefix_rbrace n hn]
    simp only [Bool.and_false, Bool.false_and, Bool.false_eq_true, if_false,
      hn, if_true]
    cases name2 with
    | nil =>
      rw [List.nil_append, interiorSearch_cons]
      have hpre : (['}'] : List Char).isPrefixOf ('}' :: after) = true := by
        simp [List.isPrefixOf]
      rw [hpre]
      simp only [List.isEmpty_cons, Bool.not_false, Bool.true_and]
      rw [show List.drop (['}'] : List Char).length ('}' :: after) = after from rfl]
      cases h3 : negLookaheadFails ['}'] after with
      | true =>
        simp only [h3, Bool.not_true, Bool.and_false, Bool.false_eq_true,
          if_false, if_true]
        rw [if_neg (by decide)]
      | false =>
        simp only [h3, Bool.not_false, Bool.and_true, if_true,
          Bool.false_eq_true, if_false]
        rw [List.reverse_cons]
    | cons m rest2 =>
      rw [ih (n :: acc) after (by simp)
        (fun x hx => hid x (List.mem_cons_of_mem n hx))]
      cases h3 : negLookaheadFails ['}'] after with
      | true => simp
      | false =>
        simp only [Bool.false_eq_true, if_false]
        rw [List.reverse_cons, List.append_assoc]
        rfl

/-- The lookbehind guard class of the default start tag holds exactly on
a brace or a pipe. -/
theorem tagClass_default_false {c : Char} (h1 : c ≠ '{') (h2 : c ≠ '|') :
    tagClass ['{'] c = false := by
  rw [tagClass]
  simp [List.contains, h1, h2]

theorem matchAt_default_guard (c : Char) (rest : List Char)
    (h : c = '{' ∨ c = '|') :
    matchAt ['{'] ['}'] (some c) rest = none := by
  rw [matchAt.eq_def]
  have hg : tagClass ['{'] c = true := by
    rcases h with h | h <;> rw [h] <;> rfl
  rw [show (match some c with
      | some c => tagClass ['{'] c
      | none => false) = tagClass ['{'] c from rfl, hg]
  rfl

theorem matchAt_default_ok (b : Option Char) (name after : List Char)
    (h1 : name ≠ []) (h2 : ∀ c ∈ name, isIdentChar c = true)
    (hb : ¬(b = some '{' ∨ b = some '|'))
    (h3 : negLookaheadFails ['}'] after = false) :
    matchAt ['{'] ['}'] b ('{' :: (name ++ '}' :: after))
      = some ('{' :: (name ++ ['}']), after) := by
  push_neg at hb
  have hpre : (['{'] : List Char).isPrefixOf ('{' :: (name ++ '}' :: after))
      = true := by simp [List.isPrefixOf]
  have hdrop : List.drop (['{'] : List Char).length
      ('{' :: (name ++ '}' :: after)) = name ++ '}' :: after := rfl
  have hint := interiorSearch_ident_run name [] after h1 h2
  rw [h3] at hint
  simp only [Bool.false_eq_true, if_false, List.reverse_nil,
    List.nil_append] at hint
  cases b with
  | none =>
    rw [matchAt.eq_def]
    simp only [hpre, hdrop, hint]
    simp [List.append_assoc]
  | some c =>
    have hc1 : c ≠ '{' := by
      intro h; exact hb.1 (by rw [h])
    have hc2 : c ≠ '|' := by
      intro h; exact hb.2 (by rw [h])
    rw [matchAt.eq_def]
    simp only [tagClass_default_false hc1 hc2, hpre, hdrop, hint]
    simp [List.append_assoc]

theorem matchAt_default_veto (b : Option Char) (name after : List Char)
    (h1 : name ≠ []) (h2 : ∀ c ∈ name, isIdentChar c = true)
    (h3 : negLookaheadFails ['}'] after = true) :
    matchAt ['{'] ['}'] b ('{' :: (name ++ '}' :: after)) = none := by
  have hpre : (['{'] : List Char).isPrefixOf ('{' :: (name ++ '}' :: after))
      = true := by simp [List.isPrefixOf]
  have hdrop : List.drop (['{'] : List Char).length
      ('{' :: (name ++ '}' :: after)) = name ++ '}' :: after := rfl
  have hint := interiorSearch_ident_run name [] after h1 h2
  rw [h3] at hint
  simp only [if_true] at hint
  cases b with
  | none =>
    rw [matchAt.eq_def]
    simp only [hpre, hdrop, hint]
    simp
  | some c =>
    rw [matchAt.eq_def]
    by_cases hc : tagClass ['{'] c = true
    · simp only [hc]
      simp
    · rw [Bool.not_eq_true] at hc
      simp only [hc, hpre, hdrop, hint]
      simp



theorem render_false_eq (t : Template) (R : List (List Char × RepValue)) :
    render t R false = Except.ok (substitute t R) := rfl

theorem render_true_eq (t : Template) (R : List (List Char × RepValue)) :
    render t R true
      = match validate t (substitute t R) with
        | Except.error e => Except.error e
        | Except.ok _ => Except.ok (substitute t R) := rfl

theorem validate_eq (t : Template) (value : List Char) :
    validate t value
      = if (getRemainingPlaceholders t value).length > 0 then
          Except.error
            (ValidationError.mk t.text (getRemainingPlaceholders t value))
        else Except.ok () := rfl

theorem render_error_fields (t : Template) (R : List (List Char × RepValue))
    (e : ValidationError) (he : render t R true = Except.error e) :
    e.template = t.text ∧
    e.missingReplacements = getRemainingPlaceholders t (substitute t R) := by
  rw [render_true_eq, validate_eq] at he
  by_cases hlen : (getRemainingPlaceholders t (substitute t R)).length > 0
  · rw [if_pos hlen] at he
    injection he with h
    rw [← h]
    exact ⟨rfl, rfl⟩
  · rw [if_neg hlen] at he
    exact Except.noConfusion he



theorem matchAt_default_iff (b : Option Char) (name after : List Char)
    (h1 : name ≠ []) (h2 : ∀ c ∈ name, isIdentChar c = true) :
    (matchAt DEFAULT_START_TAG DEFAULT_END_TAG b
        ('{' :: (name ++ '}' :: after))
      = some ('{' :: (name ++ ['}']), after))
    ↔ (b ≠ some '{' ∧ b ≠ some '|'
        ∧ negLookaheadFails DEFAULT_END_TAG after = false) := by
  have hds : DEFAULT_START_TAG = ['{'] := rfl
  have hde : DEFAULT_END_TAG = ['}'] := rfl
  rw [hds, hde]
  constructor
  · intro h
    have h3 : negLookaheadFails ['}'] after = false := by
      cases hl : negLookaheadFails ['}'] after with
      | false => rfl
      | true =>
        rw [matchAt_default_veto b name after h1 h2 hl] at h
        exact Option.noConfusion h
    refine ⟨?_, ?_, h3⟩
    · intro hb
      rw [hb, matchAt_default_guard '{' _ (Or.inl rfl)] at h
      exact Option.noConfusion h
    · intro hb
      rw [hb, matchAt_default_guard '|' _ (Or.inr rfl)] at h
      exact Option.noConfusion h
  · rintro ⟨hb1, hb2, h3⟩
    exact matchAt_default_ok b name after h1 h2
      (by rintro (h | h); exacts [hb1 h, hb2 h]) h3

theorem render_multiplicity (name : List Char) (parts : List (List Char))
    (v : RepValue) (T : List Char)
    (hT : T = joinWith ('{' :: (name ++ ['}'])) parts)
    (hv : v ≠ RepValue.null)
    (hdollar : ('$' : Char) ∉ stringifyVal v)
    (hmem : ('{' :: (name ++ ['}'])) ∈ (mkTemplate T none []).placeholders)
    (hclean : cleanParts ('{' :: (name ++ ['}'])) parts = true) :
    render (mkTemplate T none []) [(name, v)] false
      = Except.ok (joinWith (stringifyVal v) parts) := by
  have hph : (mkTemplate T none []).placeholders = scan ['{'] ['}'] T := rfl
  have hmap : (mkTemplate T none []).mapping
      = getPlaceholderMapping ['{'] ['}'] (scan ['{'] ['}'] T) := rfl
  have hreps : (mkTemplate T none []).replacements
      = getInitialReplacements
          (getPlaceholderMapping ['{'] ['}'] (scan ['{'] ['}'] T)) [] := rfl
  have htext : (mkTemplate T none []).text = T := rfl
  rw [hph] at hmem
  rcases scan_shape hmem with ⟨int, hspan, hint_ne, hint_id⟩
  have hspan2 : '{' :: (name ++ ['}']) = '{' :: (int ++ ['}']) := by
    rw [hspan]
    simp [List.append_assoc]
  have hni : name = int := by
    injection hspan2 with _ h
    exact List.append_cancel_right h
  subst hni
  have hstrip : stripName ['{'] ['}'] ('{' :: (name ++ ['}'])) = name :=
    stripName_default name hint_id
  have hkey : ('{' :: (name ++ ['}'])) ∈
      ((mkTemplate T none []).mapping).map (fun e => e.1) := by
    rw [hmap]
    exact getPlaceholderMapping_keys ['{'] ['}'] _ [] _ (Or.inr hmem)
  rcases List.mem_map.mp hkey with ⟨en, hen, hen1⟩
  have hen2 : en = ('{' :: (name ++ ['}']), name) := by
    rcases getPlaceholderMapping_mem ['{'] ['}'] _ _ en (hmap ▸ hen)
      with h0 | ⟨span, _hs, he⟩
    · simp at h0
    · have hq : span = '{' :: (name ++ ['}']) := by
        rw [he] at hen1
        exact hen1
      rw [he, hq, hstrip]
  have hpm : ('{' :: (name ++ ['}']), name) ∈ (mkTemplate T none []).mapping := by
    rw [← hen2]
    exact hen
  rcases List.append_of_mem hpm with ⟨pre, post, hsplit⟩
  have hnd : (((mkTemplate T none []).mapping).map (fun e => e.1)).Nodup := by
    rw [hmap]
    exact getPlaceholderMapping_nodup ['{'] ['}'] _ [] (by simp)
  rw [hsplit, List.map_append, List.map_cons, List.nodup_append] at hnd
  have hppre : ('{' :: (name ++ ['}'])) ∉ pre.map (fun e => e.1) := by
    intro hmem2
    exact hnd.2.2 hmem2 (List.mem_cons_self _ _)
  have hppost : ('{' :: (name ++ ['}'])) ∉ post.map (fun e => e.1) :=
    (List.nodup_cons.mp hnd.2.1).1
  have hskip : ∀ l2 : List (List Char × List Char),
      (∀ e ∈ l2, e ∈ (mkTemplate T none []).mapping) →
      (∀ e ∈ l2, e.1 ≠ '{' :: (name ++ ['}'])) →
      ∀ e ∈ l2,
        resolveValue [(name, v)] (mkTemplate T none []).replacements e.2
            = some RepValue.null ∨
        resolveValue [(name, v)] (mkTemplate T none []).replacements e.2
            = none := by
    intro l2 hsub hne e he
    left
    have hem : e ∈ (mkTemplate T none []).mapping := hsub e he
    rcases getPlaceholderMapping_mem ['{'] ['}'] _ _ e (hmap ▸ hem)
      with h0 | ⟨span, hs, hespan⟩
    · simp at h0
    · rcases scan_shape hs with ⟨int2, hspan0, _hint2_ne, hint2_id⟩
      have hspan3 : span = '{' :: (int2 ++ ['}']) := by
        rw [hspan0]
        simp [List.append_assoc]
      have hstrip2 : stripName ['{'] ['}'] span = int2 := by
        rw [hspan3]
        exact stripName_default int2 hint2_id
      cases e with
      | mk q m =>
        rw [Prod.mk.injEq] at hespan
        have hm2 : m = int2 := by rw [hespan.2, hstrip2]
        have hmname : m ≠ name := by
          intro hmn
          apply hne (q, m) he
          show q = '{' :: (name ++ ['}'])
          rw [hespan.1, hspan3, ← hm2, hmn]
        show resolveValue [(name, v)]
            (mkTemplate T none []).replacements m = some RepValue.null
        rw [resolveValue.eq_def, lookupAssoc_single_ne hmname]
        rw [hreps]
        apply lookup_initial_null
        rw [← hmap]
        exact List.mem_map.mpr ⟨(q, m), hem, rfl⟩
  have hsubst : substitute (mkTemplate T none []) [(name, v)]
      = replaceAll T ('{' :: (name ++ ['}'])) (stringifyVal v) := by
    rw [substitute, hsplit, List.foldl_append, List.foldl_cons, htext]
    have hpre_entries : ∀ e ∈ pre, e ∈ (mkTemplate T none []).mapping := by
      intro e he
      rw [hsplit]
      exact List.mem_append.mpr (Or.inl he)
    have hpre_ne : ∀ e ∈ pre, e.1 ≠ '{' :: (name ++ ['}']) := by
      intro e he hq
      exact hppre (List.mem_map.mpr ⟨e, he, hq⟩)
    rw [foldl_substStep_id _ _ pre T (hskip pre hpre_entries hpre_ne)]
    have hstep : substStep [(name, v)] (mkTemplate T none []).replacements
        T ('{' :: (name ++ ['}']), name)
        = replaceAll T ('{' :: (name ++ ['}'])) (stringifyVal v) := by
      rw [substStep.eq_def]
      simp only [resolveValue.eq_def, lookupAssoc_single_eq, if_neg hv]
    rw [hstep]
    have hpost_entries : ∀ e ∈ post, e ∈ (mkTemplate T none []).mapping := by
      intro e he
      rw [hsplit]
      exact List.mem_append.mpr
        (Or.inr (List.mem_cons_of_mem _ he))
    have hpost_ne : ∀ e ∈ post, e.1 ≠ '{' :: (name ++ ['}']) := by
      intro e he hq
      exact hppost (List.mem_map.mpr ⟨e, he, hq⟩)
    rw [foldl_substStep_id _ _ post _ (hskip post hpost_entries hpost_ne)]
  show Except.ok (substitute (mkTemplate T none []) [(name, v)])
      = Except.ok (joinWith (stringifyVal v) parts)
  rw [hsubst, hT]
  rw [replaceAll_joinWith _ _ (by simp) hdollar parts hclean]


/-! ### The claims -/

/-- Claim C1, corrected. The original claim states that a candidate with
identifier-like interior is rejected exactly when the character before the
start tag equals the start tag's first character or the character after
the end tag equals the end tag's first character, and that no other
adjacent character causes a rejection.  Both directions fail on the code:
in "\x7bid\x7d\x7dx" the character after the end tag is the end tag's
first character `\x7d`, yet the span is matched (the lookahead also
requires a following space); and in "|\x7bid\x7d" the preceding `|` - which
is not the start tag's first character - causes a rejection (the guard
class `[\x7b|\x7b]` contains the pipe). -/
theorem claim_c1_counterexample :
    scan DEFAULT_START_TAG DEFAULT_END_TAG "\x7bid\x7d\x7dx".data
      = ["\x7bid\x7d".data]
    ∧ scan DEFAULT_START_TAG DEFAULT_END_TAG "|\x7bid\x7d".data = []
    ∧ ('|' : Char) ≠ '{' :=
  ⟨rfl, rfl, by decide⟩

/-- Claim C1, amended: under the default tags, a candidate placeholder
with nonempty identifier-like interior is accepted exactly when the
character immediately before the start tag is neither `\x7b` nor `|`, and
the end tag is not followed by a character of the class
(`\x7d` or `|`) that is itself followed by a space. -/
theorem claim_c1_amended (b : Option Char) (name after : List Char)
    (h1 : name ≠ []) (h2 : ∀ c ∈ name, isIdentChar c = true) :
    (matchAt DEFAULT_START_TAG DEFAULT_END_TAG b
        ('{' :: (name ++ '}' :: after))
      = some ('{' :: (name ++ ['}']), after))
    ↔ (b ≠ some '{' ∧ b ≠ some '|'
        ∧ negLookaheadFails DEFAULT_END_TAG after = false) :=
  matchAt_default_iff b name after h1 h2

/-- Witness for claim C1: the amended equivalence evaluated at the
candidate `\x7bid\x7d` preceded by `x` and followed by `!`. -/
theorem claim_c1_witness :
    ("id".data ≠ ([] : List Char))
    ∧ (∀ c ∈ "id".data, isIdentChar c = true)
    ∧ ((matchAt DEFAULT_START_TAG DEFAULT_END_TAG (some 'x')
          ('{' :: ("id".data ++ '}' :: "!".data))
        = some ('{' :: ("id".data ++ ['}']), "!".data))
      ↔ (some 'x' ≠ some '{' ∧ some 'x' ≠ some '|'
          ∧ negLookaheadFails DEFAULT_END_TAG "!".data = false)) :=
  ⟨by decide, by decide,
    claim_c1_amended (some 'x') "id".data "!".data (by decide) (by decide)⟩

/-- Claim C2: the exact pattern text `getPlaceholderPattern` builds for
the tag pair `(` and `x`.  The claim that construction never fails is
wrong for this input: the single unmatched group parenthesis contributed
by the start tag makes `new RegExp` throw a SyntaxError (unterminated
group), so the constructor fails before any field is assigned. -/
theorem claim_c2_pattern_at_failing_input :
    patternSource "(".data "x".data
      = "(?<![(|(])([A-Za-z0-9-_]+?x(?![x|x] )".data := rfl

/-- Claim C3: `render` returns an error exactly when the validate flag is
set and placeholder spans remain in the substituted result; with the flag
unset it always returns the substituted text, and `fork` only performs a
non-validating render followed by construction. -/
theorem claim_c3_render_error_iff (t : Template)
    (R : List (List Char × RepValue)) (v : Bool) :
    ((∃ e, render t R v = Except.error e)
      ↔ (v = true ∧ getRemainingPlaceholders t (substitute t R) ≠ []))
    ∧ render t R false = Except.ok (substitute t R)
    ∧ fork t R = mkTemplate (substitute t R) (some (t.startTag, t.endTag)) [] := by
  refine ⟨?_, rfl, rfl⟩
  cases v with
  | false =>
    constructor
    · rintro ⟨e, he⟩
      exact Except.noConfusion he
    · rintro ⟨hfalse, _⟩
      exact Bool.noConfusion hfalse
  | true =>
    rw [render_true_eq, validate_eq]
    cases hrem : getRemainingPlaceholders t (substitute t R) with
    | nil =>
      rw [if_neg (by simp)]
      constructor
      · rintro ⟨e, he⟩
        exact Except.noConfusion he
      · rintro ⟨_, hne⟩
        exact absurd rfl hne
    | cons a l =>
      rw [if_pos (by simp)]
      constructor
      · intro _
        refine ⟨rfl, ?_⟩
        simp
      · intro _
        exact ⟨_, rfl⟩

/-- Claim C4, corrected. The error raised by a validating render carries
the exact ordered list of spans remaining in the substituted result, but
its `template` field is the ORIGINAL template text, not the text in which
the unresolved spans were found: rendering "\x7ba\x7d \x7bb\x7d" with the
stored value 1 for `a` validates the substituted text "1 \x7bb\x7d", yet
the error reports the original text. -/
theorem claim_c4_counterexample :
    render (mkTemplate "\x7ba\x7d \x7bb\x7d".data none
        [("a".data, RepValue.num 1)]) [] true
      = Except.error
          (ValidationError.mk "\x7ba\x7d \x7bb\x7d".data ["\x7bb\x7d".data])
    ∧ substitute (mkTemplate "\x7ba\x7d \x7bb\x7d".data none
        [("a".data, RepValue.num 1)]) [] = "1 \x7bb\x7d".data
    ∧ "\x7ba\x7d \x7bb\x7d".data ≠ "1 \x7bb\x7d".data :=
  ⟨rfl, rfl, by decide⟩

/-- Claim C4, amended: a failing validating render reports the original
template text together with the exact ordered list of spans remaining in
the substituted result; concretely, rendering "Hello \x7bname\x7d!" with no
replacements and validation on fails with missingReplacements equal to
["\x7bname\x7d"]. -/
theorem claim_c4_amended :
    (∀ (t : Template) (R : List (List Char × RepValue))
        (e : ValidationError), render t R true = Except.error e →
        e.template = t.text ∧
        e.missingReplacements = getRemainingPlaceholders t (substitute t R))
    ∧ render (mkTemplate "Hello \x7bname\x7d!".data none []) [] true
        = Except.error
            (ValidationError.mk "Hello \x7bname\x7d!".data
              ["\x7bname\x7d".data]) :=
  ⟨render_error_fields, rfl⟩

/-- Witness for claim C4: the amended statement applied to the failing
render of "Hello \x7bname\x7d!". -/
theorem claim_c4_witness :
    (ValidationError.mk "Hello \x7bname\x7d!".data
        ["\x7bname\x7d".data]).template
      = (mkTemplate "Hello \x7bname\x7d!".data none []).text
    ∧ (ValidationError.mk "Hello \x7bname\x7d!".data
        ["\x7bname\x7d".data]).missingReplacements
      = getRemainingPlaceholders (mkTemplate "Hello \x7bname\x7d!".data none [])
          (substitute (mkTemplate "Hello \x7bname\x7d!".data none []) []) :=
  claim_c4_amended.1 (mkTemplate "Hello \x7bname\x7d!".data none []) []
    (ValidationError.mk "Hello \x7bname\x7d!".data ["\x7bname\x7d".data]) rfl

/-- Claim C5: the round trip holds unconditionally - forking with a
replacement set and then rendering the fork with no overrides yields the
same string as rendering the original template with that set (the forked
template stores only null defaults, so its no-override render is the
identity on its text). -/
theorem claim_c5_round_trip (t : Template)
    (R : List (List Char × RepValue)) :
    render (fork t R) [] false = render t R false := by
  rw [render_false_eq, render_false_eq, substitute_fork_nil]

/-- Claim C6, corrected. The claim says every occurrence of the span is
replaced by the stringification of the value, for every present value.
That is false of the program: `String.prototype.replaceAll` applies the
`GetSubstitution` expansion to a string replacement, so the value "$$"
is inserted as "$", not as its stringification: rendering the text
"\x7ba\x7d" with a bound to "$$" yields "$". -/
theorem claim_c6_counterexample :
    render (mkTemplate "\x7ba\x7d".data none [])
        [("a".data, RepValue.str "$$".data)] false
      = Except.ok "$".data
    ∧ stringifyVal (RepValue.str "$$".data) = "$$".data
    ∧ "$".data ≠ "$$".data :=
  ⟨rfl, rfl, by decide⟩

/-- Claim C6, amended: when the text decomposes as k copies of the span
of name N joined by the parts (and the parts hide no further copy),
rendering with a present value for N whose stringification contains no
dollar sign replaces every copy with the stringified value and leaves
the parts - including any other, unresolved spans inside them -
unchanged.  (In general the inserted text is the JS `GetSubstitution`
expansion of the stringified value, which equals it exactly when it
contains no `$`.) -/
theorem claim_c6_multiplicity (name : List Char) (parts : List (List Char))
    (v : RepValue) (T : List Char)
    (hT : T = joinWith ('{' :: (name ++ ['}'])) parts)
    (hv : v ≠ RepValue.null)
    (hnd : ('$' : Char) ∉ stringifyVal v)
    (hmem : ('{' :: (name ++ ['}'])) ∈ (mkTemplate T none []).placeholders)
    (hclean : cleanParts ('{' :: (name ++ ['}'])) parts = true) :
    render (mkTemplate T none []) [(name, v)] false
      = Except.ok (joinWith (stringifyVal v) parts) :=
  render_multiplicity name parts v T hT hv hnd hmem hclean

/-- Witness for claim C6: the span `\x7bn\x7d` occurs three times in
"a\x7bn\x7db\x7bn\x7dc\x7bn\x7dd"; rendering with n bound to the
dollar-free value "X" replaces all three occurrences. -/
theorem claim_c6_witness :
    render (mkTemplate "a\x7bn\x7db\x7bn\x7dc\x7bn\x7dd".data none [])
        [("n".data, RepValue.str "X".data)] false
      = Except.ok (joinWith (stringifyVal (RepValue.str "X".data))
          ["a".data, "b".data, "c".data, "d".data]) :=
  claim_c6_multiplicity "n".data ["a".data, "b".data, "c".data, "d".data]
    (RepValue.str "X".data) "a\x7bn\x7db\x7bn\x7dc\x7bn\x7dd".data
    (by rfl) (by decide) (by decide) (by decide) (by decide)

/-- Claim C7: the text "\x7ba\x7d-\x7ba\x7d-\x7bb\x7d" yields three
placeholder spans (two for `a`, one for `b`), a two-entry span-to-name
mapping, and a two-entry name-to-value contract for the bare names `a`
and `b`. -/
theorem claim_c7_dedup :
    (mkTemplate "\x7ba\x7d-\x7ba\x7d-\x7bb\x7d".data none []).placeholders
      = ["\x7ba\x7d".data, "\x7ba\x7d".data, "\x7bb\x7d".data]
    ∧ (mkTemplate "\x7ba\x7d-\x7ba\x7d-\x7bb\x7d".data none []).mapping
      = [("\x7ba\x7d".data, "a".data), ("\x7bb\x7d".data, "b".data)]
    ∧ (mkTemplate "\x7ba\x7d-\x7ba\x7d-\x7bb\x7d".data none []).replacements
      = [("a".data, RepValue.null), ("b".data, RepValue.null)] :=
  ⟨rfl, rfl, rfl⟩

/-- Claim C8: under default tags the doubled-marker text "\x7b\x7bname\x7d\x7d"
contains no placeholder (the inner candidate is rejected by the
lookbehind on the extra `\x7b`), and rendering "\x7b\x7bid\x7d\x7d" with a
value for `id` returns the text unchanged. -/
theorem claim_c8_doubled_marker :
    scan DEFAULT_START_TAG DEFAULT_END_TAG "\x7b\x7bname\x7d\x7d".data = []
    ∧ (mkTemplate "\x7b\x7bid\x7d\x7d".data none []).placeholders = []
    ∧ render (mkTemplate "\x7b\x7bid\x7d\x7d".data none [])
        [("id".data, RepValue.num 5)] false
      = Except.ok "\x7b\x7bid\x7d\x7d".data :=
  ⟨rfl, rfl, rfl⟩

/-- Claim C9: substitution proceeds sequentially over one accumulating
string in mapping order, so on "\x7ba\x7d\x7bb\x7d" the render is the
replacement for `a` followed by the replacement for `b` on the
intermediate result; in particular a value for `a` that introduces the
span of `b` is itself substituted, giving "XX". -/
theorem claim_c9_sequential :
    (∀ va vb : List Char,
      render (mkTemplate "\x7ba\x7d\x7bb\x7d".data none [])
          [("a".data, RepValue.str va), ("b".data, RepValue.str vb)] false
        = Except.ok (replaceAll
            (replaceAll "\x7ba\x7d\x7bb\x7d".data "\x7ba\x7d".data va)
            "\x7bb\x7d".data vb))
    ∧ render (mkTemplate "\x7ba\x7d\x7bb\x7d".data none [])
        [("a".data, RepValue.str "\x7bb\x7d".data),
         ("b".data, RepValue.str "X".data)] false
      = Except.ok "XX".data :=
  ⟨fun _ _ => rfl, rfl⟩

/-- Claim C10: an empty tag string is falsy, so the constructor silently
replaces it by the corresponding default; constructing with both tags
empty is identical to omitting the tags (and to passing the defaults
explicitly). -/
theorem claim_c10_empty_tags (text : List Char)
    (reps : List (List Char × RepValue)) (s e : List Char) :
    (mkTemplate text (some ([], e)) reps).startTag = DEFAULT_START_TAG
    ∧ (mkTemplate text (some (s, [])) reps).endTag = DEFAULT_END_TAG
    ∧ mkTemplate text (some ([], [])) reps = mkTemplate text none reps
    ∧ mkTemplate text (some ([], [])) reps
        = mkTemplate text (some (DEFAULT_START_TAG, DEFAULT_END_TAG)) reps :=
  ⟨rfl, rfl, rfl, rfl⟩

end TemplateString
